import Mathlib

/-!
Verification development for the SnowWeave sprite-sheet pipeline.

The definitions below are a shallow embedding of the Python sources:
* `lib/extract_sprite_frames.py` — frame sampling, letterbox-border
  detection, sprite-sheet composition;
* `remove_background.py` — background-color detection, chroma keying,
  transparent-edge cropping, width normalization.

Raster images are modelled as a width, a height and a total pixel
function; only coordinates `x < w`, `y < h` are ever read by the
operations.  Machine integers of the Python code become `ℕ`/`ℤ`/`ℚ`,
with Python's truncating `int(...)` and floor division `//` made
explicit.
-/

set_option maxRecDepth 8192

namespace SnowWeave

/-- Python `int(q)` on a rational: truncation toward zero. -/
def pyInt (q : ℚ) : ℤ := if 0 ≤ q then ⌊q⌋ else ⌈q⌉

/-- Python `range(s, e, k)` for a positive step `k`:
the list `[s, s + k, …)` of all elements below `e`. -/
def pyRange (s e k : ℤ) : List ℤ :=
  (List.range ((e - s + k - 1).fdiv k).toNat).map (fun (i : ℕ) => s + (i : ℤ) * k)

/-- Python slice `l[:n]`: for `n ≥ 0` the first `n` elements, for
`n < 0` everything but the last `-n` elements (clamped at zero). -/
def pyTake (l : List α) (n : ℤ) : List α :=
  if 0 ≤ n then l.take n.toNat else l.take (l.length - (-n).toNat)

/-- An RGB raster image: `pix x y` is the `(r, g, b)` value of the
pixel in column `x`, row `y`. -/
structure RGB where
  w : ℕ
  h : ℕ
  pix : ℕ → ℕ → ℕ × ℕ × ℕ

/-- An RGBA raster image: `pix x y` is `((r, g, b), a)`. -/
structure RGBA where
  w : ℕ
  h : ℕ
  pix : ℕ → ℕ → (ℕ × ℕ × ℕ) × ℕ

/-- Alpha channel of an RGBA image at a pixel. -/
def RGBA.alpha (img : RGBA) (x y : ℕ) : ℕ := (img.pix x y).2

/-- Sum of the three channel values over column `x`
(`np.mean(img_array, axis=(0, 2))` numerator in
`detect_black_border_params`). -/
def colSum (img : RGB) (x : ℕ) : ℕ :=
  ∑ y ∈ Finset.range img.h,
    ((img.pix x y).1 + (img.pix x y).2.1 + (img.pix x y).2.2)

/-- Column `x` exceeds the brightness floor: mean brightness over the
`3 * h` samples of the column is strictly above the threshold `30`,
i.e. `colSum > 90 * h` in exact arithmetic. -/
def colBright (img : RGB) (x : ℕ) : Bool :=
  decide (90 * img.h < colSum img x)

/-- Columns whose mean brightness exceeds the floor
(`np.where(col_brightness > black_threshold)[0]`). -/
def nonBlackCols (img : RGB) : List ℕ :=
  (List.range img.w).filter (colBright img)

/-- Embedding of `detect_black_border_params` from
`lib/extract_sprite_frames.py` (threshold fixed at its default `30`):
`None` unless the dimensions are inside the calibration window
`1270 ≤ w ≤ 1290 ∧ 710 ≤ h ≤ 770`; otherwise the leftmost bright
column and one past the rightmost, unless that span is the full
width. -/
def detect_black_border_params (img : RGB) : Option (ℕ × ℕ) :=
  if 1270 ≤ img.w ∧ img.w ≤ 1290 ∧ 710 ≤ img.h ∧ img.h ≤ 770 then
    match nonBlackCols img with
    | [] => none
    | c :: cs =>
      let left := c
      let right := (c :: cs).getLastD 0 + 1
      if left = 0 ∧ right = img.w then none else some (left, right)
  else none

/-- Embedding of `apply_crop`: `image.crop((left, 0, right, h))`. -/
def apply_crop (img : RGB) (left right : ℕ) : RGB :=
  ⟨right - left, img.h, fun x y => img.pix (x + left) y⟩

/-- Per-frame treatment inside the extraction loop: crop with the
shared parameters when present, otherwise keep the frame. -/
def processFrame (crop : Option (ℕ × ℕ)) (f : RGB) : RGB :=
  match crop with
  | some (l, r) => apply_crop f l r
  | none => f

/-- A decodable video: frame rate, frame count, and the result of
seeking to an index and reading one frame (`none` = failed read). -/
structure Video where
  fps : ℚ
  total_frames : ℕ
  decode : ℤ → Option RGB

/-- Duration in seconds, `total_frames / fps`. -/
def Video.duration (v : Video) : ℚ := (v.total_frames : ℚ) / v.fps

/-- Sentinel test for whole-video extraction. -/
def parseFullVideo (start_time end_time : ℚ) : Prop :=
  (start_time = 0 ∧ end_time = 0) ∨ start_time = -1 ∨ end_time = -1

instance (s e : ℚ) : Decidable (parseFullVideo s e) := by
  unfold parseFullVideo; infer_instance

/-- Start of the window after sentinel handling. -/
def resolvedStart (start_time end_time : ℚ) : ℚ :=
  if parseFullVideo start_time end_time then 0 else start_time

/-- End of the window after sentinel handling. -/
def resolvedEnd (v : Video) (start_time end_time : ℚ) : ℚ :=
  if parseFullVideo start_time end_time then v.duration else end_time

/-- `start_frame = int(start_time * fps)`. -/
def startFrame (v : Video) (start_time end_time : ℚ) : ℤ :=
  pyInt (resolvedStart start_time end_time * v.fps)

/-- `end_frame = min(int(end_time * fps), total_frames)`. -/
def endFrame (v : Video) (start_time end_time : ℚ) : ℤ :=
  min (pyInt (resolvedEnd v start_time end_time * v.fps)) (v.total_frames : ℤ)

/-- `available_frames = end_frame - start_frame`. -/
def availableFrames (v : Video) (start_time end_time : ℚ) : ℤ :=
  endFrame v start_time end_time - startFrame v start_time end_time

/-- Sampling stride and frame-count pair chosen by the sampler. -/
structure Plan where
  interval : ℤ
  count : ℤ
deriving DecidableEq

/-- Stride/count computation of `extract_frames_from_video_segment`
(`lib/extract_sprite_frames.py`, the `target_fps = 16` block):
`frame_interval = max(1, int(fps / 16))`,
`actual_max_frames = available // frame_interval`, then the
`max_frames` cap re-deriving the stride. -/
def samplingPlan (fps : ℚ) (available : ℤ) (max_frames : ℤ) : Plan :=
  let fi : ℤ := max 1 (pyInt (fps / 16))
  let amf : ℤ := available.fdiv fi
  if 0 < max_frames ∧ max_frames < amf then
    ⟨available.fdiv max_frames, max_frames⟩
  else
    ⟨fi, amf⟩

/-- `frame_indices = list(range(start_frame, end_frame, frame_interval))[:actual_max_frames]`. -/
def frameIndices (v : Video) (start_time end_time : ℚ) (max_frames : ℤ) : List ℤ :=
  let plan := samplingPlan v.fps (availableFrames v start_time end_time) max_frames
  pyTake (pyRange (startFrame v start_time end_time)
                  (endFrame v start_time end_time) plan.interval) plan.count

/-- Fatal failures of one extraction call. -/
inductive ExtractError where
  /-- `frame_indices[0]` raised on an empty index list: the requested
  window contributes no frame indices. -/
  | emptyWindow
  /-- The seek-and-read of the first selected frame failed
  (`raise ValueError` in the source). -/
  | firstFrameReadFailed
deriving DecidableEq

/-- Embedding of `extract_frames_from_video_segment` from
`lib/extract_sprite_frames.py`: build the index list, read the first
selected frame, run border detection once on it, then decode every
index, skipping failed reads and applying the shared crop. -/
def extractSegment (v : Video) (start_time end_time : ℚ) (max_frames : ℤ) :
    Except ExtractError (List RGB) :=
  match frameIndices v start_time end_time max_frames with
  | [] => .error .emptyWindow
  | i0 :: _ =>
    match v.decode i0 with
    | none => .error .firstFrameReadFailed
    | some f0 =>
      .ok ((frameIndices v start_time end_time max_frames).filterMap fun i =>
        (v.decode i).map (processFrame (detect_black_border_params f0)))

/-- Channel sum over one `10 × 10` corner block whose top-left sample
is at `(ox, oy)`, for one channel selector `sel`. -/
def cornerSum (img : RGB) (sel : ℕ × ℕ × ℕ → ℕ) (ox oy : ℕ) : ℕ :=
  ∑ dy ∈ Finset.range 10, ∑ dx ∈ Finset.range 10,
    sel (img.pix (ox + dx) (oy + dy))

/-- Channel sum over the four corner blocks of
`detect_background_color` (400 samples in all). -/
def cornersTotal (img : RGB) (sel : ℕ × ℕ × ℕ → ℕ) : ℕ :=
  cornerSum img sel 0 0 + cornerSum img sel (img.w - 10) 0 +
  cornerSum img sel 0 (img.h - 10) + cornerSum img sel (img.w - 10) (img.h - 10)

/-- Embedding of `detect_background_color` from `remove_background.py`:
componentwise mean of the 400 corner samples, truncated to an integer
(`np.mean(...).astype(int)`; the mean of naturals is nonnegative, so
truncation is the floor, here `ℕ` division by `400`). -/
def detect_background_color (img : RGB) : ℕ × ℕ × ℕ :=
  (cornersTotal img (fun p => p.1) / 400,
   cornersTotal img (fun p => p.2.1) / 400,
   cornersTotal img (fun p => p.2.2) / 400)

/-- Squared Euclidean RGB distance between a pixel and a background
color (`np.sum((img_array - bg_color) ** 2, axis=2)` at one pixel). -/
def sqDist (p : ℕ × ℕ × ℕ) (c : ℤ × ℤ × ℤ) : ℤ :=
  ((p.1 : ℤ) - c.1) ^ 2 + ((p.2.1 : ℤ) - c.2.1) ^ 2 + ((p.2.2 : ℤ) - c.2.2) ^ 2

/-- Embedding of `remove_background` from `remove_background.py`:
keep the RGB data and attach the alpha plane that starts at `255`
and is zeroed on the mask `distance <= tolerance`.  The source
compares `np.sqrt(d) <= tolerance` in `float64`; for integer `d` and
nonnegative integer `tolerance` that comparison holds exactly when
`d ≤ tolerance ^ 2`, which is the form used here. -/
def remove_background (img : RGB) (bg : ℤ × ℤ × ℤ) (tol : ℕ) : RGBA :=
  ⟨img.w, img.h, fun x y =>
    (img.pix x y, if sqDist (img.pix x y) bg ≤ (tol : ℤ) ^ 2 then 0 else 255)⟩

/-- Pixels with a strictly positive alpha, as row/column pairs
`(y, x)` in the order of `np.where(alpha > 0)`. -/
def opaqueSet (img : RGBA) : Finset (ℕ × ℕ) :=
  (Finset.range img.h ×ˢ Finset.range img.w).filter (fun p => 0 < img.alpha p.2 p.1)

/-- PIL `image.crop((x0, y0, x1, y1))`. -/
def cropRect (img : RGBA) (x0 y0 x1 y1 : ℕ) : RGBA :=
  ⟨x1 - x0, y1 - y0, fun x y => img.pix (x + x0) (y + y0)⟩

/-- Embedding of `auto_crop_transparent` from `remove_background.py`
on RGBA input: bounding box of the pixels with `alpha > 0`, padded
and clamped (`max(0, · - padding)` is `ℕ` subtraction), or the
unchanged image when every pixel is fully transparent. -/
def auto_crop_transparent (img : RGBA) (padding : ℕ) : RGBA :=
  if hS : (opaqueSet img).Nonempty then
    let ys := (opaqueSet img).image Prod.fst
    let xs := (opaqueSet img).image Prod.snd
    let y0 := ys.min' (hS.image _) - padding
    let y1 := min img.h (ys.max' (hS.image _) + 1 + padding)
    let x0 := xs.min' (hS.image _) - padding
    let x1 := min img.w (xs.max' (hS.image _) + 1 + padding)
    cropRect img x0 y0 x1 y1
  else img

/-- Pillow's fixed-point blend for a paste through a mask value `m`:
`(base * (255 - m) + src * m) / 255` with integer division. -/
def blend (m a b : ℕ) : ℕ := (a * (255 - m) + b * m) / 255

/-- PIL `base.paste(src, (ox, oy), src)` for RGBA images: inside the
pasted region every band, alpha included, is blended through the
source's own alpha; outside it the base is kept. -/
def pasteMask (base src : RGBA) (ox oy : ℕ) : RGBA :=
  ⟨base.w, base.h, fun x y =>
    if ox ≤ x ∧ x < ox + src.w ∧ oy ≤ y ∧ y < oy + src.h then
      let p := base.pix x y
      let q := src.pix (x - ox) (y - oy)
      ((blend q.2 p.1.1 q.1.1, blend q.2 p.1.2.1 q.1.2.1,
        blend q.2 p.1.2.2 q.1.2.2), blend q.2 p.2 q.2)
    else base.pix x y⟩

/-- PIL `base.paste(src, (ox, oy))` without a mask: the pasted region
is replaced outright. -/
def pasteNoMask (base src : RGBA) (ox oy : ℕ) : RGBA :=
  ⟨base.w, base.h, fun x y =>
    if ox ≤ x ∧ x < ox + src.w ∧ oy ≤ y ∧ y < oy + src.h then
      src.pix (x - ox) (y - oy)
    else base.pix x y⟩

/-- `Image.new('RGBA', (w, h), (0, 0, 0, 0))`. -/
def blankCanvas (w h : ℕ) : RGBA := ⟨w, h, fun _ _ => ((0, 0, 0), 0)⟩

/-- Embedding of `normalize_width` from `remove_background.py` on
RGBA batches: an empty batch is returned as is; otherwise the target
defaults to the maximum width and each narrower image is pasted,
through its own alpha, onto a fresh transparent canvas at horizontal
offset `(target - width) // 2`. -/
def normalize_width (images : List RGBA) (target_width : Option ℕ) : List RGBA :=
  match images with
  | [] => []
  | _ =>
    let tw := target_width.getD ((images.map (fun i => i.w)).foldl max 0)
    images.map fun img =>
      if img.w < tw then
        pasteMask (blankCanvas tw img.h) img ((tw - img.w) / 2) 0
      else img

/-- Fatal failure of sheet composition
(`raise ValueError("没有帧可以处理")`). -/
inductive SheetError where
  | noFramesToProcess
deriving DecidableEq

/-- Horizontal tiling loop of `create_sprite_sheet`: paste frame `i`
at `x = i * fw` onto a transparent canvas of width
`fw * len(frames)` and height `fh`. -/
def composeSheet (frames : List RGBA) (fw fh : ℕ) : RGBA :=
  frames.enum.foldl (fun acc p => pasteNoMask acc p.2 (p.1 * fw) 0)
    (blankCanvas (fw * frames.length) fh)

/-- Embedding of `create_sprite_sheet` from
`lib/extract_sprite_frames.py` on RGBA frames (the source converts
non-RGBA frames first; on RGBA input that conversion is the
identity).  `resample` stands for PIL's LANCZOS `frame.resize`,
applied only on the explicit `frame_size` path. -/
def create_sprite_sheet (resample : RGBA → ℕ × ℕ → RGBA)
    (frames : List RGBA) (frame_size : Option (ℕ × ℕ)) :
    Except SheetError (RGBA × List RGBA) :=
  match frame_size with
  | none =>
    match frames with
    | [] => .error .noFramesToProcess
    | f :: _ => .ok (composeSheet frames f.w f.h, frames)
  | some fs =>
    let rframes := frames.map (fun f => resample f fs)
    .ok (composeSheet rframes fs.1 fs.2, rframes)

/-! Concrete images used by scenarios, counterexamples and witnesses. -/

/-- Solid pure-green `100 × 100` image (spec scenario C). -/
def green100 : RGB := ⟨100, 100, fun _ _ => (0, 255, 0)⟩

/-- A `1 × 1` pure-black image. -/
def blackPixel1 : RGB := ⟨1, 1, fun _ _ => (0, 0, 0)⟩

/-- Squared distances are nonnegative. -/
lemma sqDist_nonneg (p : ℕ × ℕ × ℕ) (c : ℤ × ℤ × ℤ) : 0 ≤ sqDist p c := by
  unfold sqDist; positivity

/-- The keyed alpha plane, unfolded. -/
lemma alpha_remove_background (img : RGB) (bg : ℤ × ℤ × ℤ) (tol x y : ℕ) :
    (remove_background img bg tol).alpha x y =
      if sqDist (img.pix x y) bg ≤ (tol : ℤ) ^ 2 then 0 else 255 := rfl

/-- Exact-real form of the keying threshold: comparing the Euclidean
distance with a nonnegative tolerance is comparing the squared
distance with the squared tolerance. -/
lemma sqrt_sqDist_le_iff (p : ℕ × ℕ × ℕ) (c : ℤ × ℤ × ℤ) (tol : ℕ) :
    Real.sqrt ((sqDist p c : ℤ) : ℝ) ≤ (tol : ℝ) ↔
      sqDist p c ≤ (tol : ℤ) ^ 2 := by
  rw [Real.sqrt_le_left (by positivity)]
  exact_mod_cast Iff.rfl

/-- C10: `remove_background` preserves the width and the height of its
input and copies every pixel's RGB value unchanged into the output;
only the alpha channel is freshly computed. -/
theorem C10_remove_background_frame_effect (img : RGB) (bg : ℤ × ℤ × ℤ) (tol : ℕ) :
    (remove_background img bg tol).w = img.w ∧
    (remove_background img bg tol).h = img.h ∧
    ∀ x y, ((remove_background img bg tol).pix x y).1 = img.pix x y :=
  ⟨rfl, rfl, fun _ _ => rfl⟩

/-- C2: the keyed alpha is binary: it is `0` exactly when the Euclidean
RGB distance of the pixel to the background color is at most the
tolerance and `255` otherwise, and it is a pure function of the
pixel value, the background color and the tolerance alone, so a
re-run on equal pixel data yields a bit-identical alpha. -/
theorem C2_remove_background_binary_threshold (img : RGB) (bg : ℤ × ℤ × ℤ)
    (tol x y : ℕ) :
    ((remove_background img bg tol).alpha x y = 0 ∨
      (remove_background img bg tol).alpha x y = 255) ∧
    ((remove_background img bg tol).alpha x y = 0 ↔
      Real.sqrt ((sqDist (img.pix x y) bg : ℤ) : ℝ) ≤ (tol : ℝ)) ∧
    (∀ (img' : RGB) (x' y' : ℕ), img'.pix x' y' = img.pix x y →
      (remove_background img' bg tol).alpha x' y' =
        (remove_background img bg tol).alpha x y) := by
  refine ⟨?_, ?_, ?_⟩
  · rw [alpha_remove_background]
    split <;> simp
  · rw [alpha_remove_background, sqrt_sqDist_le_iff]
    split <;> simp_all
  · intro img' x' y' hpix
    rw [alpha_remove_background, alpha_remove_background, hpix]

/-- C2 witness: the theorem applied to the `1 × 1` black image keyed
against pure black, with the purity hypothesis discharged on the
image itself. -/
theorem C2_remove_background_binary_threshold_witness :
    ((remove_background blackPixel1 (0, 0, 0) 30).alpha 0 0 = 0 ∨
      (remove_background blackPixel1 (0, 0, 0) 30).alpha 0 0 = 255) ∧
    (remove_background blackPixel1 (0, 0, 0) 30).alpha 0 0 =
      (remove_background blackPixel1 (0, 0, 0) 30).alpha 0 0 :=
  ⟨(C2_remove_background_binary_threshold blackPixel1 (0, 0, 0) 30 0 0).1,
   (C2_remove_background_binary_threshold blackPixel1 (0, 0, 0) 30 0 0).2.2
     blackPixel1 0 0 rfl⟩

/-- C4 counterexample: with `tolerance = 441` a pure-black pixel keyed
against a pure-white background keeps alpha `255`: its distance is
`√195075 ≈ 441.68 > 441`, so `441` does not remove every pixel as the
claim states. -/
theorem C4_tolerance441_counterexample :
    (remove_background blackPixel1 (255, 255, 255) 441).alpha 0 0 = 255 := by
  decide

/-- C4 (amended): with `tolerance = 0` exactly the pixels equal to the
background color become transparent, and any `tolerance ≥ 442` makes
every pixel of an 8-bit image (all components at most `255`,
background components within `[0, 255]`) transparent; `442`, not
`441`, is the least such bound, the maximal possible RGB Euclidean
distance being `√(3 · 255²) ≈ 441.68`. -/
theorem C4_tolerance_boundaries :
    (∀ (img : RGB) (bg : ℤ × ℤ × ℤ) (x y : ℕ),
      (remove_background img bg 0).alpha x y = 0 ↔
        (((img.pix x y).1 : ℤ) = bg.1 ∧ ((img.pix x y).2.1 : ℤ) = bg.2.1 ∧
          ((img.pix x y).2.2 : ℤ) = bg.2.2)) ∧
    (∀ (img : RGB) (bg : ℤ × ℤ × ℤ) (tol : ℕ) (x y : ℕ),
      442 ≤ tol →
      (img.pix x y).1 ≤ 255 → (img.pix x y).2.1 ≤ 255 → (img.pix x y).2.2 ≤ 255 →
      0 ≤ bg.1 → bg.1 ≤ 255 → 0 ≤ bg.2.1 → bg.2.1 ≤ 255 →
      0 ≤ bg.2.2 → bg.2.2 ≤ 255 →
      (remove_background img bg tol).alpha x y = 0) := by
  constructor
  · intro img bg x y
    rw [alpha_remove_background]
    have h1 : (0 : ℤ) ≤ (((img.pix x y).1 : ℤ) - bg.1) ^ 2 := sq_nonneg _
    have h2 : (0 : ℤ) ≤ (((img.pix x y).2.1 : ℤ) - bg.2.1) ^ 2 := sq_nonneg _
    have h3 : (0 : ℤ) ≤ (((img.pix x y).2.2 : ℤ) - bg.2.2) ^ 2 := sq_nonneg _
    constructor
    · intro h0
      by_cases hle : sqDist (img.pix x y) bg ≤ ((0 : ℕ) : ℤ) ^ 2
      · have heq : sqDist (img.pix x y) bg = 0 :=
          le_antisymm (by simpa using hle) (sqDist_nonneg _ _)
        unfold sqDist at heq
        have e1 : (((img.pix x y).1 : ℤ) - bg.1) ^ 2 = 0 :=
          le_antisymm (by linarith) h1
        have e2 : (((img.pix x y).2.1 : ℤ) - bg.2.1) ^ 2 = 0 :=
          le_antisymm (by linarith) h2
        have e3 : (((img.pix x y).2.2 : ℤ) - bg.2.2) ^ 2 = 0 :=
          le_antisymm (by linarith) h3
        exact ⟨sub_eq_zero.mp (sq_eq_zero_iff.mp e1),
               sub_eq_zero.mp (sq_eq_zero_iff.mp e2),
               sub_eq_zero.mp (sq_eq_zero_iff.mp e3)⟩
      · rw [if_neg hle] at h0
        norm_num at h0
    · rintro ⟨e1, e2, e3⟩
      have : sqDist (img.pix x y) bg = 0 := by unfold sqDist; rw [e1, e2, e3]; ring
      simp [this]
  · intro img bg tol x y htol hp1 hp2 hp3 hb1 hb1' hb2 hb2' hb3 hb3'
    rw [alpha_remove_background]
    have c1 : (((img.pix x y).1 : ℤ) - bg.1) ^ 2 ≤ 255 ^ 2 := by
      have : ((img.pix x y).1 : ℤ) ≤ 255 := by exact_mod_cast hp1
      have h0 : (0 : ℤ) ≤ ((img.pix x y).1 : ℤ) := Int.natCast_nonneg _
      exact sq_le_sq' (by linarith) (by linarith)
    have c2 : (((img.pix x y).2.1 : ℤ) - bg.2.1) ^ 2 ≤ 255 ^ 2 := by
      have : ((img.pix x y).2.1 : ℤ) ≤ 255 := by exact_mod_cast hp2
      have h0 : (0 : ℤ) ≤ ((img.pix x y).2.1 : ℤ) := Int.natCast_nonneg _
      exact sq_le_sq' (by linarith) (by linarith)
    have c3 : (((img.pix x y).2.2 : ℤ) - bg.2.2) ^ 2 ≤ 255 ^ 2 := by
      have : ((img.pix x y).2.2 : ℤ) ≤ 255 := by exact_mod_cast hp3
      have h0 : (0 : ℤ) ≤ ((img.pix x y).2.2 : ℤ) := Int.natCast_nonneg _
      exact sq_le_sq' (by linarith) (by linarith)
    have htol' : (442 : ℤ) ≤ (tol : ℤ) := by exact_mod_cast htol
    have hsq : (442 : ℤ) ^ 2 ≤ (tol : ℤ) ^ 2 := by nlinarith
    have : sqDist (img.pix x y) bg ≤ (tol : ℤ) ^ 2 := by
      unfold sqDist; nlinarith
    simp [this]

/-- C4 witness: at tolerance `0` only the exact background pixel of the
black `1 × 1` image is keyed out, and at tolerance `442` even the
pure-black pixel against a pure-white background becomes
transparent. -/
theorem C4_tolerance_boundaries_witness :
    ((remove_background blackPixel1 (0, 0, 0) 0).alpha 0 0 = 0 ↔
      (((blackPixel1.pix 0 0).1 : ℤ) = 0 ∧ ((blackPixel1.pix 0 0).2.1 : ℤ) = 0 ∧
        ((blackPixel1.pix 0 0).2.2 : ℤ) = 0)) ∧
    (remove_background blackPixel1 (255, 255, 255) 442).alpha 0 0 = 0 :=
  ⟨C4_tolerance_boundaries.1 blackPixel1 (0, 0, 0) 0 0,
   C4_tolerance_boundaries.2 blackPixel1 (255, 255, 255) 442 0 0
      (by norm_num) (by decide) (by decide) (by decide)
      (by norm_num) (by norm_num) (by norm_num) (by norm_num)
      (by norm_num) (by norm_num)⟩

/-- C6: on an image of at least `10 × 10` pixels, `detect_background_color`
returns, per component, the integer part of the mean of the 400 pixels
of the four `10 × 10` corner blocks (the value `r` with
`r * 400 ≤ sum < (r + 1) * 400`), and on the solid pure-green
`100 × 100` image the result is exactly `(0, 255, 0)`. -/
theorem C6_detect_background_corner_mean :
    (∀ img : RGB, 10 ≤ img.w → 10 ≤ img.h →
      ((detect_background_color img).1 * 400 ≤ cornersTotal img (fun p => p.1) ∧
        cornersTotal img (fun p => p.1) < ((detect_background_color img).1 + 1) * 400) ∧
      ((detect_background_color img).2.1 * 400 ≤ cornersTotal img (fun p => p.2.1) ∧
        cornersTotal img (fun p => p.2.1) < ((detect_background_color img).2.1 + 1) * 400) ∧
      ((detect_background_color img).2.2 * 400 ≤ cornersTotal img (fun p => p.2.2) ∧
        cornersTotal img (fun p => p.2.2) < ((detect_background_color img).2.2 + 1) * 400)) ∧
    detect_background_color green100 = (0, 255, 0) := by
  constructor
  · intro img _ _
    refine ⟨⟨?_, ?_⟩, ⟨?_, ?_⟩, ⟨?_, ?_⟩⟩ <;>
      simp only [detect_background_color] <;>
      first
        | exact Nat.div_mul_le_self _ _
        | exact (Nat.div_lt_iff_lt_mul (by norm_num)).mp (Nat.lt_succ_self _)
  · have hsum : ∀ ox oy : ℕ, cornerSum green100 (fun p => p.2.1) ox oy = 25500 := by
      intro ox oy
      simp [cornerSum, green100, Finset.sum_const, Finset.card_range]
    have hz : ∀ (sel : ℕ × ℕ × ℕ → ℕ), sel (0, 255, 0) = 0 →
        ∀ ox oy : ℕ, cornerSum green100 sel ox oy = 0 := by
      intro sel hsel ox oy
      simp [cornerSum, green100, hsel]
    simp only [detect_background_color, cornersTotal, hsum, hz (fun p => p.1) rfl,
      hz (fun p => p.2.2) rfl]

/-- C6 witness: the bracketing of the corner mean applied to the
concrete `100 × 100` green image. -/
theorem C6_detect_background_corner_mean_witness :
    (detect_background_color green100).1 * 400 ≤ cornersTotal green100 (fun p => p.1) ∧
    cornersTotal green100 (fun p => p.1) <
      ((detect_background_color green100).1 + 1) * 400 :=
  (C6_detect_background_corner_mean.1 green100 (by decide) (by decide)).1

/-- Python truncation agrees with the floor on nonnegative input. -/
lemma pyInt_of_nonneg {q : ℚ} (h : 0 ≤ q) : pyInt q = ⌊q⌋ := if_pos h

/-- The sampling stride chosen by the plan is always positive. -/
lemma samplingPlan_interval_pos (fps : ℚ) (a m : ℤ) :
    0 < (samplingPlan fps a m).interval := by
  unfold samplingPlan
  set fi : ℤ := max 1 (pyInt (fps / 16)) with hfi_def
  have hfi : (0 : ℤ) < fi := lt_of_lt_of_le one_pos (le_max_left _ _)
  by_cases h : 0 < m ∧ m < a.fdiv fi
  · rw [if_pos h]
    obtain ⟨hm, hlt⟩ := h
    rw [Int.fdiv_eq_ediv _ hfi.le] at hlt
    have h1 : 1 ≤ a / fi := by linarith
    have hfa : 1 * fi ≤ a := (Int.le_ediv_iff_mul_le hfi).mp h1
    have ha : 0 ≤ a := by linarith
    have hma : m ≤ a := le_of_lt (lt_of_lt_of_le hlt (Int.ediv_le_self fi ha))
    show 0 < a.fdiv m
    rw [Int.fdiv_eq_ediv _ hm.le]
    exact (Int.le_ediv_iff_mul_le hm).mpr (by linarith)
  · rw [if_neg h]
    exact hfi

/-- A positive-step Python range over an inverted window is empty. -/
lemma pyRange_eq_nil {s e k : ℤ} (hk : 0 < k) (he : e ≤ s) : pyRange s e k = [] := by
  unfold pyRange
  have hN : (e - s + k - 1).fdiv k ≤ 0 := by
    rw [Int.fdiv_eq_ediv _ hk.le]
    have := (Int.ediv_lt_iff_lt_mul hk).mpr (by linarith : e - s + k - 1 < 1 * k)
    linarith
  rw [Int.toNat_eq_zero.mpr hN]
  rfl

/-- Length of a Python range. -/
lemma pyRange_length (s e k : ℤ) :
    (pyRange s e k).length = ((e - s + k - 1).fdiv k).toNat := by
  unfold pyRange
  rw [List.length_map, List.length_range]

/-- A slice of the empty list is empty. -/
lemma pyTake_nil (n : ℤ) : pyTake ([] : List α) n = [] := by
  unfold pyTake
  split <;> simp

/-- Length of a nonnegative slice. -/
lemma pyTake_length_of_nonneg (l : List α) (n : ℤ) (hn : 0 ≤ n) :
    (pyTake l n).length = min n.toNat l.length := by
  unfold pyTake
  rw [if_pos hn, List.length_take]

/-- An empty or inverted window yields an empty index list. -/
lemma frameIndices_of_nonpos (v : Video) (s e : ℚ) (m : ℤ)
    (ha : availableFrames v s e ≤ 0) : frameIndices v s e m = [] := by
  have hk : 0 < (samplingPlan v.fps (availableFrames v s e) m).interval :=
    samplingPlan_interval_pos _ _ _
  have he : endFrame v s e ≤ startFrame v s e := by
    have : endFrame v s e - startFrame v s e ≤ 0 := ha
    linarith
  simp only [frameIndices]
  rw [pyRange_eq_nil hk he, pyTake_nil]

/-- C3: whenever the computed window yields `available ≤ 0`, the
extraction call fails with the empty-window error (the `IndexError`
of `frame_indices[0]` on an empty index list) and never returns an
empty or partial frame sequence. -/
theorem C3_empty_window_is_fatal (v : Video) (s e : ℚ) (m : ℤ)
    (ha : availableFrames v s e ≤ 0) :
    extractSegment v s e m = .error .emptyWindow := by
  unfold extractSegment
  rw [frameIndices_of_nonpos v s e m ha]

/-- Video used by the `C3` witness: 10 fps, 100 frames. -/
def video10 : Video := ⟨10, 100, fun _ => none⟩

/-- The inverted window `[2, 1]` on `video10` computes `available = -10`. -/
lemma availableFrames_video10 : availableFrames video10 2 1 = -10 := by
  have hfull : ¬ parseFullVideo 2 1 := by unfold parseFullVideo; norm_num
  simp only [availableFrames, startFrame, endFrame, resolvedStart, resolvedEnd,
    if_neg hfull, video10]
  rw [pyInt_of_nonneg (by norm_num), pyInt_of_nonneg (by norm_num)]
  norm_num

/-- C3 witness: the inverted window `[2, 1]` on `video10` is fatal. -/
theorem C3_empty_window_is_fatal_witness :
    extractSegment video10 2 1 8 = .error .emptyWindow :=
  C3_empty_window_is_fatal video10 2 1 8 (by rw [availableFrames_video10]; norm_num)

/-- C1: with a nonnegative frame rate and a nonempty window, the
sampler's stride is `max 1 ⌊fps / 16⌋` and its natural count is
`available.fdiv stride`; exactly when `0 < max_frames < natural
count`, the stride is recomputed as `available.fdiv max_frames` and
the number of generated frame indices is capped to exactly
`max_frames`. -/
theorem C1_sampling_stride_and_cap (v : Video) (s e : ℚ) (m : ℤ)
    (hfps : 0 ≤ v.fps) (ha : 0 < availableFrames v s e) :
    (¬(0 < m ∧ m < (availableFrames v s e).fdiv (max 1 ⌊v.fps / 16⌋)) →
      samplingPlan v.fps (availableFrames v s e) m =
        ⟨max 1 ⌊v.fps / 16⌋, (availableFrames v s e).fdiv (max 1 ⌊v.fps / 16⌋)⟩) ∧
    ((0 < m ∧ m < (availableFrames v s e).fdiv (max 1 ⌊v.fps / 16⌋)) →
      samplingPlan v.fps (availableFrames v s e) m =
        ⟨(availableFrames v s e).fdiv m, m⟩ ∧
      (frameIndices v s e m).length = m.toNat) := by
  have hpy : pyInt (v.fps / 16) = ⌊v.fps / 16⌋ :=
    pyInt_of_nonneg (div_nonneg hfps (by norm_num))
  constructor
  · intro hnot
    simp only [samplingPlan, hpy]
    rw [if_neg hnot]
  · intro hcap
    have hplan : samplingPlan v.fps (availableFrames v s e) m =
        ⟨(availableFrames v s e).fdiv m, m⟩ := by
      simp only [samplingPlan, hpy]
      rw [if_pos hcap]
    refine ⟨hplan, ?_⟩
    obtain ⟨hm, hlt⟩ := hcap
    set a : ℤ := availableFrames v s e with ha_def
    set k : ℤ := a.fdiv m with hk_def
    have hkediv : k = a / m := Int.fdiv_eq_ediv _ hm.le
    have hma : m ≤ a := by
      have h1 : a.fdiv (max 1 ⌊v.fps / 16⌋) ≤ a := by
        have hfi : (0 : ℤ) < max 1 ⌊v.fps / 16⌋ :=
          lt_of_lt_of_le one_pos (le_max_left _ _)
        rw [Int.fdiv_eq_ediv _ hfi.le]
        exact Int.ediv_le_self _ ha.le
      linarith
    have hk : 0 < k := by
      rw [hkediv]
      exact (Int.le_ediv_iff_mul_le hm).mpr (by linarith)
    have hmk : m * k ≤ a := by
      rw [hkediv, mul_comm]
      exact Int.ediv_mul_le a (ne_of_gt hm)
    have hmN : m ≤ (a + k - 1).fdiv k := by
      rw [Int.fdiv_eq_ediv _ hk.le]
      exact (Int.le_ediv_iff_mul_le hk).mpr (by linarith)
    simp only [frameIndices]
    rw [hplan]
    have harg : endFrame v s e - startFrame v s e = a := rfl
    rw [pyTake_length_of_nonneg _ _ hm.le, pyRange_length, harg]
    exact Nat.min_eq_left (Int.toNat_le_toNat hmN)

/-- Video of spec scenario A: 30 fps, 90 frames, 3 seconds. -/
def video30 : Video := ⟨30, 90, fun _ => none⟩

/-- Scenario A window `(0, 0)` selects whole-video mode and computes
`available = 90` on `video30`. -/
lemma availableFrames_video30 : availableFrames video30 0 0 = 90 := by
  have hfull : parseFullVideo 0 0 := Or.inl ⟨rfl, rfl⟩
  simp only [availableFrames, startFrame, endFrame, resolvedStart, resolvedEnd,
    if_pos hfull, video30, Video.duration]
  rw [pyInt_of_nonneg (by norm_num), pyInt_of_nonneg (by norm_num)]
  norm_num

/-- C1 witness: scenario A with `max_frames = 8`: the natural count 90
exceeds the cap, the stride is recomputed as `90 // 8 = 11` and
exactly 8 indices are generated. -/
theorem C1_sampling_stride_and_cap_witness :
    samplingPlan video30.fps (availableFrames video30 0 0) 8 = ⟨11, 8⟩ ∧
    (frameIndices video30 0 0 8).length = (8 : ℤ).toNat := by
  have h8 : (0 : ℤ) < 8 ∧ (8 : ℤ) < (availableFrames video30 0 0).fdiv
      (max 1 ⌊video30.fps / 16⌋) := by
    rw [availableFrames_video30]
    constructor
    · norm_num
    · have hfloor : ⌊(video30.fps : ℚ) / 16⌋ = 1 := by
        rw [show video30.fps = (30 : ℚ) from rfl, Int.floor_eq_iff]
        · norm_num
      rw [hfloor]
      decide
  have h := (C1_sampling_stride_and_cap video30 0 0 8
    (by rw [show video30.fps = (30 : ℚ) from rfl]; norm_num)
    (by rw [availableFrames_video30]; norm_num)).2 h8
  refine ⟨?_, h.2⟩
  rw [h.1, availableFrames_video30]
  decide

/-- Scenario D image: a single opaque `10 × 10` block (rows and
columns `45 … 54`) centered in a `100 × 100` fully transparent
canvas. -/
def block100 : RGBA :=
  ⟨100, 100, fun x y =>
    ((255, 255, 255), if 45 ≤ x ∧ x ≤ 54 ∧ 45 ≤ y ∧ y ≤ 54 then 255 else 0)⟩

/-- Membership in the opaque-pixel set of `block100`. -/
lemma mem_opaqueSet_block100 (y x : ℕ) :
    ((y, x) : ℕ × ℕ) ∈ opaqueSet block100 ↔
      (45 ≤ x ∧ x ≤ 54 ∧ 45 ≤ y ∧ y ≤ 54) := by
  by_cases hc : 45 ≤ x ∧ x ≤ 54 ∧ 45 ≤ y ∧ y ≤ 54
  · simp only [opaqueSet, Finset.mem_filter, Finset.mem_product, Finset.mem_range,
      RGBA.alpha, block100, if_pos hc]
    constructor
    · intro; exact hc
    · intro; exact ⟨⟨by omega, by omega⟩, by norm_num⟩
  · simp only [opaqueSet, Finset.mem_filter, Finset.mem_product, Finset.mem_range,
      RGBA.alpha, block100, if_neg hc]
    constructor
    · rintro ⟨-, h0⟩; exact absurd h0 (by norm_num)
    · intro h; exact absurd h hc

/-- C7: `auto_crop_transparent` returns the input unchanged when no
pixel is even partially opaque; otherwise it crops to the bounding
box of the pixels with `alpha > 0`, extended by the padding on each
side and clamped to the image bounds; and on scenario D (a `10 × 10`
opaque block centered in a transparent `100 × 100` canvas, padding
`0`) the result is exactly `10 × 10`. -/
theorem C7_crop_to_content :
    (∀ (img : RGBA) (padding : ℕ),
      (∀ x y, x < img.w → y < img.h → img.alpha x y = 0) →
      auto_crop_transparent img padding = img) ∧
    (∀ (img : RGBA) (padding : ℕ) (hS : (opaqueSet img).Nonempty),
      auto_crop_transparent img padding =
        cropRect img
          (((opaqueSet img).image Prod.snd).min' (hS.image _) - padding)
          (((opaqueSet img).image Prod.fst).min' (hS.image _) - padding)
          (min img.w (((opaqueSet img).image Prod.snd).max' (hS.image _) + 1 + padding))
          (min img.h (((opaqueSet img).image Prod.fst).max' (hS.image _) + 1 + padding))) ∧
    ((auto_crop_transparent block100 0).w = 10 ∧
      (auto_crop_transparent block100 0).h = 10) := by
  have hgen : ∀ (img : RGBA) (padding : ℕ) (hS : (opaqueSet img).Nonempty),
      auto_crop_transparent img padding =
        cropRect img
          (((opaqueSet img).image Prod.snd).min' (hS.image _) - padding)
          (((opaqueSet img).image Prod.fst).min' (hS.image _) - padding)
          (min img.w (((opaqueSet img).image Prod.snd).max' (hS.image _) + 1 + padding))
          (min img.h (((opaqueSet img).image Prod.fst).max' (hS.image _) + 1 + padding)) := by
    intro img padding hS
    simp only [auto_crop_transparent]
    rw [dif_pos hS]
  refine ⟨?_, hgen, ?_⟩
  · intro img padding h0
    have hne : ¬ (opaqueSet img).Nonempty := by
      rintro ⟨⟨y, x⟩, hp⟩
      simp only [opaqueSet, Finset.mem_filter, Finset.mem_product, Finset.mem_range] at hp
      obtain ⟨⟨hy, hx⟩, hpos⟩ := hp
      rw [h0 x y hx hy] at hpos
      exact absurd hpos (by norm_num)
    simp only [auto_crop_transparent]
    rw [dif_neg hne]
  · have h4545 : ((45, 45) : ℕ × ℕ) ∈ opaqueSet block100 :=
      (mem_opaqueSet_block100 45 45).mpr (by norm_num)
    have h4554 : ((45, 54) : ℕ × ℕ) ∈ opaqueSet block100 :=
      (mem_opaqueSet_block100 45 54).mpr (by norm_num)
    have h5445 : ((54, 45) : ℕ × ℕ) ∈ opaqueSet block100 :=
      (mem_opaqueSet_block100 54 45).mpr (by norm_num)
    have hS : (opaqueSet block100).Nonempty := ⟨_, h4545⟩
    have hbound : ∀ p ∈ opaqueSet block100,
        45 ≤ p.2 ∧ p.2 ≤ 54 ∧ 45 ≤ p.1 ∧ p.1 ≤ 54 := by
      intro p hp
      exact (mem_opaqueSet_block100 p.1 p.2).mp hp
    have hxmin : ((opaqueSet block100).image Prod.snd).min' (hS.image _) = 45 := by
      refine le_antisymm (Finset.min'_le _ 45 (Finset.mem_image.mpr ⟨_, h4545, rfl⟩))
        (Finset.le_min' _ _ 45 ?_)
      intro b hb
      obtain ⟨p, hp, rfl⟩ := Finset.mem_image.mp hb
      exact (hbound p hp).1
    have hxmax : ((opaqueSet block100).image Prod.snd).max' (hS.image _) = 54 := by
      refine le_antisymm (Finset.max'_le _ _ 54 ?_)
        (Finset.le_max' _ 54 (Finset.mem_image.mpr ⟨_, h4554, rfl⟩))
      intro b hb
      obtain ⟨p, hp, rfl⟩ := Finset.mem_image.mp hb
      exact (hbound p hp).2.1
    have hymin : ((opaqueSet block100).image Prod.fst).min' (hS.image _) = 45 := by
      refine le_antisymm (Finset.min'_le _ 45 (Finset.mem_image.mpr ⟨_, h4545, rfl⟩))
        (Finset.le_min' _ _ 45 ?_)
      intro b hb
      obtain ⟨p, hp, rfl⟩ := Finset.mem_image.mp hb
      exact (hbound p hp).2.2.1
    have hymax : ((opaqueSet block100).image Prod.fst).max' (hS.image _) = 54 := by
      refine le_antisymm (Finset.max'_le _ _ 54 ?_)
        (Finset.le_max' _ 54 (Finset.mem_image.mpr ⟨_, h5445, rfl⟩))
      intro b hb
      obtain ⟨p, hp, rfl⟩ := Finset.mem_image.mp hb
      exact (hbound p hp).2.2.2
    rw [hgen block100 0 hS, hxmin, hxmax, hymin, hymax]
    constructor <;> simp [cropRect, block100]

/-- C7 witness: a fully transparent `5 × 5` canvas is returned
unchanged regardless of the padding. -/
theorem C7_crop_to_content_witness :
    auto_crop_transparent (blankCanvas 5 5) 3 = blankCanvas 5 5 :=
  C7_crop_to_content.1 (blankCanvas 5 5) 3 (fun _ _ _ _ => rfl)

/-- The seed is below a left max-fold. -/
lemma le_foldl_max (l : List ℕ) (a : ℕ) : a ≤ l.foldl max a := by
  induction l generalizing a with
  | nil => exact le_refl a
  | cons b t ih => exact le_trans (le_max_left a b) (ih (max a b))

/-- Every element is below a left max-fold. -/
lemma foldl_max_le (l : List ℕ) (a : ℕ) : ∀ x ∈ l, x ≤ l.foldl max a := by
  induction l generalizing a with
  | nil => intro x hx; cases hx
  | cons b t ih =>
    intro x hx
    rcases List.mem_cons.mp hx with rfl | hx'
    · exact le_trans (le_max_right a x) (le_foldl_max t (max a x))
    · exact ih (max a b) x hx'

/-- A left max-fold is the seed or an element of the list. -/
lemma foldl_max_mem (l : List ℕ) (a : ℕ) :
    l.foldl max a = a ∨ l.foldl max a ∈ l := by
  induction l generalizing a with
  | nil => exact Or.inl rfl
  | cons b t ih =>
    rcases ih (max a b) with h | h
    · rcases max_choice a b with hab | hab
      · exact Or.inl (by rw [List.foldl_cons, h, hab])
      · exact Or.inr (by rw [List.foldl_cons, h, hab]; exact List.mem_cons_self b t)
    · exact Or.inr (List.mem_cons_of_mem b h)

/-- C9: on a nonempty batch with default target, `normalize_width`
targets the maximum width of the batch (an upper bound that is
attained); every image narrower than the target is pasted, through
its own alpha, onto a fresh fully transparent canvas of target width
and unchanged height at horizontal offset `(target - width) / 2`,
and every other image passes through unchanged; on the scenario E
batch of widths `[50, 80, 60]` all outputs have width `80`. -/
theorem C9_normalize_width_centering (images : List RGBA) (hne : images ≠ []) :
    (∀ img ∈ images, img.w ≤ (images.map (fun i => i.w)).foldl max 0) ∧
    (∃ img ∈ images, img.w = (images.map (fun i => i.w)).foldl max 0) ∧
    normalize_width images none =
      images.map (fun img =>
        if img.w < (images.map (fun i => i.w)).foldl max 0 then
          pasteMask (blankCanvas ((images.map (fun i => i.w)).foldl max 0) img.h)
            img ((((images.map (fun i => i.w)).foldl max 0) - img.w) / 2) 0
        else img) ∧
    (normalize_width [blankCanvas 50 10, blankCanvas 80 10, blankCanvas 60 10]
        none).map (fun i => i.w) = [80, 80, 80] := by
  obtain ⟨a, t, rfl⟩ := List.exists_cons_of_ne_nil hne
  refine ⟨?_, ?_, rfl, rfl⟩
  · intro img hmem
    exact foldl_max_le _ 0 img.w (List.mem_map_of_mem (fun i => i.w) hmem)
  · rcases foldl_max_mem (((a :: t).map (fun i => i.w))) 0 with h | h
    · refine ⟨a, List.mem_cons_self a t, ?_⟩
      have hle := foldl_max_le ((a :: t).map (fun i => i.w)) 0 a.w
        (List.mem_map_of_mem (fun i => i.w) (List.mem_cons_self a t))
      omega
    · obtain ⟨img, hmem, heq⟩ := List.mem_map.mp h
      exact ⟨img, hmem, heq⟩

/-- C9 witness: the scenario E widths, via the theorem at the concrete
three-image batch. -/
theorem C9_normalize_width_centering_witness :
    (normalize_width [blankCanvas 50 10, blankCanvas 80 10, blankCanvas 60 10]
        none).map (fun i => i.w) = [80, 80, 80] :=
  (C9_normalize_width_centering
    [blankCanvas 50 10, blankCanvas 80 10, blankCanvas 60 10]
    (List.cons_ne_nil _ _)).2.2.2

/-- Stand-in resampler for concrete sheet-composition runs. -/
def idResample : RGBA → ℕ × ℕ → RGBA := fun f _ => f

/-- C8 counterexample: with zero images and an explicitly supplied
`frame_size`, the composer does not fail: it returns an empty
(zero-width) sheet, refuting the claim that zero images fail for
every value of `frame_size`. -/
theorem C8_explicit_size_counterexample :
    create_sprite_sheet idResample [] (some (64, 64)) =
      .ok (blankCanvas 0 64, []) := rfl

/-- C8 (amended): with zero images the composer fails only on the
default `frame_size = None` path (the `ValueError` of the source);
with an explicit `frame_size` it instead returns a zero-width sheet
of the requested height together with an empty frame list. -/
theorem C8_empty_input :
    (∀ resample : RGBA → ℕ × ℕ → RGBA,
      create_sprite_sheet resample [] none = .error .noFramesToProcess) ∧
    (∀ (resample : RGBA → ℕ × ℕ → RGBA) (fs : ℕ × ℕ),
      create_sprite_sheet resample [] (some fs) = .ok (blankCanvas 0 fs.2, [])) :=
  ⟨fun _ => rfl, fun _ _ => rfl⟩

/-- A filter of `range n` by a predicate that holds exactly on the
band `[a, b)` is the contiguous range of that band, clipped to `n`. -/
lemma filter_range_band (p : ℕ → Bool) (a b : ℕ) (hab : a ≤ b) :
    ∀ n, (∀ x, x < n → (p x = true ↔ (a ≤ x ∧ x < b))) →
      (List.range n).filter p = List.range' a (min b n - a) := by
  intro n
  induction n with
  | zero => intro _; simp
  | succ n ih =>
    intro hp
    rw [List.range_succ, List.filter_append,
      ih (fun x hx => hp x (Nat.lt_succ_of_lt hx))]
    by_cases hn : a ≤ n ∧ n < b
    · have hpn : p n = true := (hp n (Nat.lt_succ_self n)).mpr hn
      have hsing : List.filter p [n] = [n] := by simp [hpn]
      have h1 : min b n = n := Nat.min_eq_right (le_of_lt hn.2)
      have h2 : min b (n + 1) = n + 1 := Nat.min_eq_right (Nat.succ_le_of_lt hn.2)
      rw [hsing, h1, h2]
      have h3 : n + 1 - a = (n - a) + 1 := by omega
      rw [h3, List.range'_concat]
      congr 2
      omega
    · have hpn : p n = false := by
        cases hval : p n with
        | false => rfl
        | true => exact absurd ((hp n (Nat.lt_succ_self n)).mp hval) hn
      have hsing : List.filter p [n] = [] := by simp [hpn]
      rw [hsing, List.append_nil]
      congr 1
      omega

/-- Last element of a nonempty contiguous range. -/
lemma getLastD_range' (a n : ℕ) (hn : 0 < n) :
    (List.range' a n).getLastD 0 = a + n - 1 := by
  obtain ⟨m, rfl⟩ := Nat.exists_eq_add_of_lt hn
  rw [Nat.zero_add, List.range'_concat, List.getLastD_concat]
  omega

/-- A `1280 × h` frame whose content (pure white) spans columns
`[40, 1240)` with pure black elsewhere. -/
def bandFrame (h : ℕ) : RGB :=
  ⟨1280, h, fun x _ => if 40 ≤ x ∧ x < 1240 then (255, 255, 255) else (0, 0, 0)⟩

/-- Column sums of the band frame. -/
lemma colSum_bandFrame (h x : ℕ) :
    colSum (bandFrame h) x = if 40 ≤ x ∧ x < 1240 then 765 * h else 0 := by
  by_cases hx : 40 ≤ x ∧ x < 1240
  · simp [colSum, bandFrame, hx, Finset.sum_const, Finset.card_range, mul_comm]
  · simp [colSum, bandFrame, hx]

/-- Bright columns of the band frame are exactly its content band. -/
lemma nonBlackCols_bandFrame (h : ℕ) (hh : 0 < h) :
    nonBlackCols (bandFrame h) = List.range' 40 1200 := by
  have := filter_range_band (colBright (bandFrame h)) 40 1240 (by norm_num) 1280
    (fun x _ => by
      rw [colBright, decide_eq_true_iff, colSum_bandFrame]
      by_cases hx : 40 ≤ x ∧ x < 1240
      · rw [if_pos hx]
        constructor
        · intro _; exact hx
        · intro _
          calc 90 * h < 765 * h := by
                have : (0 : ℕ) < h := hh
                omega
            _ = 765 * h := rfl
      · rw [if_neg hx]
        constructor
        · intro habs
          exact absurd habs (by omega)
        · intro habs; exact absurd habs hx)
  unfold nonBlackCols
  rw [show (bandFrame h).w = 1280 from rfl, this]
  norm_num

/-- The band frame, at any height inside the code's calibration
window, is detected with crop columns `(40, 1240)`. -/
lemma detect_bandFrame (h : ℕ) (h1 : 710 ≤ h) (h2 : h ≤ 770) :
    detect_black_border_params (bandFrame h) = some (40, 1240) := by
  have hh : 0 < h := by omega
  have hcols : nonBlackCols (bandFrame h) = 40 :: List.range' 41 1199 := by
    rw [nonBlackCols_bandFrame h hh]
    rfl
  have hlast : (40 :: List.range' 41 1199).getLastD 0 = 1239 := by
    have heq : (40 :: List.range' 41 1199) = List.range' 40 1200 := rfl
    rw [heq, getLastD_range' 40 1200 (by norm_num)]
  unfold detect_black_border_params
  rw [if_pos ⟨(by norm_num : (1270 : ℕ) ≤ 1280), (by norm_num : (1280 : ℕ) ≤ 1290),
    h1, h2⟩, hcols]
  simp only [hlast]
  norm_num

/-- C5 counterexample: a `1280 × 750` band frame lies outside the
±10-pixel calibration window the claim states for the height (750 is
not within `[710, 730]`), yet `detect_black_border_params` still runs
on it and returns the crop `(40, 1240)`: the code accepts heights up
to `770`. -/
theorem C5_height_window_counterexample :
    detect_black_border_params (bandFrame 750) = some (40, 1240) ∧
    ¬(720 - 10 ≤ (bandFrame 750).h ∧ (bandFrame 750).h ≤ 720 + 10) :=
  ⟨detect_bandFrame 750 (by norm_num) (by norm_num), by
    simp only [bandFrame]
    norm_num⟩

/-- C5 (amended): letterbox detection runs once, on the first
successfully decoded frame, and only when that frame's width is
within `[1270, 1290]` and its height within `[710, 770]` (that is,
`1280 ± 10` horizontally but `720 − 10 / + 50` vertically — not
`± 10` as claimed); frames with dimensions outside that window are
left undetected; the crop derived from the first frame is applied to
every decoded frame of the batch and never crops the height; a
`1280 × 720` frame with content spanning columns `[40, 1240)` and
pure black elsewhere yields exactly the crop window `(40, 1240)`. -/
theorem C5_letterbox_border_policy :
    detect_black_border_params (bandFrame 720) = some (40, 1240) ∧
    (∀ img : RGB,
      ¬(1270 ≤ img.w ∧ img.w ≤ 1290 ∧ 710 ≤ img.h ∧ img.h ≤ 770) →
      detect_black_border_params img = none) ∧
    (∀ (f : RGB) (l r : ℕ), (apply_crop f l r).h = f.h) ∧
    (∀ (v : Video) (s e : ℚ) (m : ℤ) (i0 : ℤ) (rest : List ℤ) (f0 : RGB),
      frameIndices v s e m = i0 :: rest → v.decode i0 = some f0 →
      extractSegment v s e m =
        .ok ((frameIndices v s e m).filterMap fun i =>
          (v.decode i).map (processFrame (detect_black_border_params f0)))) := by
  refine ⟨detect_bandFrame 720 (by norm_num) (by norm_num), ?_, fun _ _ _ => rfl, ?_⟩
  · intro img hout
    unfold detect_black_border_params
    rw [if_neg hout]
  · intro v s e m i0 rest f0 hidx hdec
    simp only [extractSegment, hidx, hdec]

/-- Frame and video used by the `C5` witness. -/
def tinyFrame : RGB := ⟨1, 1, fun _ _ => (0, 0, 0)⟩

/-- One-frame 16 fps video whose only decodable index is `0`. -/
def tinyVideo : Video := ⟨16, 1, fun i => if i = 0 then some tinyFrame else none⟩

/-- The window `[0, 1]` on `tinyVideo` selects exactly index `0`. -/
lemma frameIndices_tinyVideo : frameIndices tinyVideo 0 1 0 = [0] := by
  have hfull : ¬ parseFullVideo 0 1 := by unfold parseFullVideo; norm_num
  have hstart : startFrame tinyVideo 0 1 = 0 := by
    simp only [startFrame, resolvedStart, if_neg hfull]
    rw [pyInt_of_nonneg (by norm_num)]
    norm_num
  have hend : endFrame tinyVideo 0 1 = 1 := by
    simp only [endFrame, resolvedEnd, if_neg hfull]
    rw [show tinyVideo.fps = (16 : ℚ) from rfl, pyInt_of_nonneg (by norm_num)]
    norm_num
    rfl
  have havail : availableFrames tinyVideo 0 1 = 1 := by
    unfold availableFrames
    rw [hstart, hend]
    norm_num
  have hplan : samplingPlan tinyVideo.fps (availableFrames tinyVideo 0 1) 0 = ⟨1, 1⟩ := by
    rw [havail]
    unfold samplingPlan
    rw [show tinyVideo.fps = (16 : ℚ) from rfl, pyInt_of_nonneg (by norm_num)]
    rw [show ⌊(16 : ℚ) / 16⌋ = 1 by norm_num]
    norm_num
  simp only [frameIndices]
  rw [hplan, hstart, hend]
  decide

/-- C5 witness: on `tinyVideo` the single frame is decoded, border
detection runs on it (finding nothing: a `1 × 1` frame is outside
the calibration window) and extraction succeeds. -/
theorem C5_letterbox_border_policy_witness :
    extractSegment tinyVideo 0 1 0 =
      .ok ((frameIndices tinyVideo 0 1 0).filterMap fun i =>
        (tinyVideo.decode i).map (processFrame (detect_black_border_params tinyFrame))) :=
  C5_letterbox_border_policy.2.2.2 tinyVideo 0 1 0 0 [] tinyFrame
    frameIndices_tinyVideo rfl

end SnowWeave
